import Mathlib

/-!
Verification development for `torch/onnx/_internal/registration.py`.

The Python module implements a versioned symbolic-function registry:
`_dispatch_opset_version` (directional nearest-version resolution toward the
anchor `ONNX_BASE_OPSET`), `OverrideDict` (a base layer plus an override layer
with an eagerly recomputed merged view), `_SymbolicFunctionGroup` (per-name
handler group with an `lru_cache`-memoized `get`), and `SymbolicRegistry`
(name-keyed map of groups).

The shallow embedding below models:
  * Python `dict` as an association list with Python's update semantics
    (setting an existing key keeps its position, a new key is appended;
    `{**base, **overrides}` folds the override entries into a copy of base);
  * Python exceptions as `Except PyError`;
  * `warnings.warn` as a returned `Bool` flag (warnings are non-fatal);
  * the `functools.lru_cache` on `_SymbolicFunctionGroup.get` as an explicit
    result cache stored in the group state, cleared by `cache_clear()`;
  * handlers (opaque Python callables) as values of an arbitrary type `V`.
-/

set_option linter.unusedVariables false

deriving instance DecidableEq for Except

/-- Python exception classes that the module under verification can raise:
the defensive `assert` in `_dispatch_opset_version` (`AssertionError`),
`OverrideDict.__getitem__` on a missing key (`KeyError`), and the
name-format check in `SymbolicRegistry.register` (`ValueError`). -/
inductive PyError
  | assertionError
  | keyError
  | valueError
deriving DecidableEq, Repr

/-- Modelled from the spec: `torch.onnx._constants.ONNX_BASE_OPSET` is imported
by `registration.py` but `_constants.py` is not part of the given sources; the
spec fixes the anchor (`BASE_VERSION`) at 9. -/
def ONNX_BASE_OPSET : Int := 9

/-! ### Python `dict` as an association list -/

/-- Replaces the value of an entry when its key is `k`, keeping the key. -/
def rep_entry {K V : Type} [DecidableEq K] (k : K) (v : V) (p : K × V) : K × V :=
  if p.1 = k then (p.1, v) else p

/-- Python `d[k] = v`: an existing key keeps its position and gets the new
value; a fresh key is appended at the end. -/
def dict_insert {K V : Type} [DecidableEq K] (l : List (K × V)) (k : K) (v : V) :
    List (K × V) :=
  if l.any (fun p => decide (p.1 = k)) then l.map (rep_entry k v) else l ++ [(k, v)]

/-- Python `d.pop(k, None)`: removes the entry for `k` when present. -/
def dict_pop {K V : Type} [DecidableEq K] (l : List (K × V)) (k : K) : List (K × V) :=
  l.filter (fun p => decide (p.1 ≠ k))

/-- Python `d.get(k)` / `k in d`: the value stored for `k`, if any. -/
def dict_get {K V : Type} [DecidableEq K] (l : List (K × V)) (k : K) : Option V :=
  (l.find? (fun p => decide (p.1 = k))).map Prod.snd

/-- Python `iter(d)`: the keys, in insertion order. -/
def dict_keys {K V : Type} (l : List (K × V)) : List K :=
  l.map Prod.fst

/-- Python `{**b, **o}`: a copy of `b` updated with every entry of `o`. -/
def dict_union {K V : Type} [DecidableEq K] (b o : List (K × V)) : List (K × V) :=
  o.foldl (fun acc p => dict_insert acc p.1 p.2) b

/-! ### `_dispatch_opset_version` -/

/-- Translation of `_dispatch_opset_version`: given a target opset version and
the available opsets, finds the registered opset by scanning the sorted
available versions downward for the greatest `v` with
`ONNX_BASE_OPSET ≤ v ≤ target`, then upward for the least `v` with
`target ≤ v ≤ ONNX_BASE_OPSET`; if both scans fail, a defensive `assert`
admits only two configurations before returning `None`.  Python's `sorted` is
modelled by insertion sort (on integers any ascending sort yields the same
list), `available_versions[0]` / `available_versions[-1]` by
`headD` / `getLastD` (both are reached only when the list is non-empty, where
the default is irrelevant). -/
def _dispatch_opset_version (target : Int) (available_opsets : List Int) :
    Except PyError (Option Int) :=
  if available_opsets.isEmpty then Except.ok none
  else
    let available_versions := List.insertionSort (fun a b => a ≤ b) available_opsets
    match available_versions.reverse.find?
        (fun version => decide (ONNX_BASE_OPSET ≤ version ∧ version ≤ target)) with
    | some version => Except.ok (some version)
    | none =>
      match available_versions.find?
          (fun version => decide (target ≤ version ∧ version ≤ ONNX_BASE_OPSET)) with
      | some version => Except.ok (some version)
      | none =>
        if available_versions.isEmpty
            ∨ (ONNX_BASE_OPSET ≤ target ∧ target < available_versions.headD 0)
            ∨ (available_versions.getLastD 0 < ONNX_BASE_OPSET ∧ ONNX_BASE_OPSET < target)
        then Except.ok none
        else Except.error PyError.assertionError

/-! ### `OverrideDict` -/

/-- Translation of `OverrideDict`: a dictionary that merges built-in and custom
symbolic functions, holding `_base`, `_overrides` and the derived `_merged`. -/
structure OverrideDict (K V : Type) where
  base : List (K × V)
  overrides : List (K × V)
  merged : List (K × V)
deriving DecidableEq, Repr

/-- Translation of `OverrideDict.__init__`: all three dictionaries empty. -/
def OverrideDict.empty {K V : Type} : OverrideDict K V :=
  ⟨[], [], []⟩

/-- Translation of `OverrideDict.override`: overrides a base key-value with a
new pair, updating `_merged` in place. -/
def OverrideDict.override {K V : Type} [DecidableEq K] (d : OverrideDict K V)
    (key : K) (value : V) : OverrideDict K V :=
  { d with
    overrides := dict_insert d.overrides key value
    merged := dict_insert d.merged key value }

/-- Translation of `OverrideDict.remove_override`: un-overrides a key-value
pair and recomputes `_merged` as `{**base, **overrides}`. -/
def OverrideDict.remove_override {K V : Type} [DecidableEq K] (d : OverrideDict K V)
    (key : K) : OverrideDict K V :=
  let o := dict_pop d.overrides key
  { d with overrides := o, merged := dict_union d.base o }

/-- Translation of `OverrideDict.__setitem__`: writes to the base layer and
recomputes `_merged` as `{**base, **overrides}`. -/
def OverrideDict.setitem {K V : Type} [DecidableEq K] (d : OverrideDict K V)
    (key : K) (value : V) : OverrideDict K V :=
  let b := dict_insert d.base key value
  { d with base := b, merged := dict_union b d.overrides }

/-- Translation of `OverrideDict.overridden`: checks if a key is overridden. -/
def OverrideDict.overridden {K V : Type} [DecidableEq K] (d : OverrideDict K V)
    (key : K) : Bool :=
  (dict_get d.overrides key).isSome

/-- Translation of `OverrideDict.in_base`: checks if a key is in the base
dictionary. -/
def OverrideDict.in_base {K V : Type} [DecidableEq K] (d : OverrideDict K V)
    (key : K) : Bool :=
  (dict_get d.base key).isSome

/-- Translation of `OverrideDict.get`: reads from `_merged`. -/
def OverrideDict.get {K V : Type} [DecidableEq K] (d : OverrideDict K V)
    (key : K) : Option V :=
  dict_get d.merged key

/-- Translation of `OverrideDict.__contains__`: membership in `_merged`. -/
def OverrideDict.contains {K V : Type} [DecidableEq K] (d : OverrideDict K V)
    (key : K) : Bool :=
  (dict_get d.merged key).isSome

/-- Translation of `OverrideDict.__iter__`: iteration over `_merged` keys. -/
def OverrideDict.keys {K V : Type} (d : OverrideDict K V) : List K :=
  dict_keys d.merged

/-- Translation of `OverrideDict.__len__`: the size of `_merged`. -/
def OverrideDict.size {K V : Type} (d : OverrideDict K V) : Nat :=
  d.merged.length

/-! ### `_SymbolicFunctionGroup` -/

/-- Translation of `_SymbolicFunctionGroup`: the different versions of symbolic
functions registered to the same name.  The `functools.lru_cache` on `get` is
modelled as an explicit `cache` from requested opset to memoized result. -/
structure SymbolicFunctionGroup (V : Type) where
  name : String
  functions : OverrideDict Int V
  cache : List (Int × Option V)
deriving DecidableEq, Repr

/-- Body of `_SymbolicFunctionGroup.get` without the `lru_cache` layer:
dispatches on the opset versions available in `self._functions` (iterating the
`OverrideDict` yields the `_merged` keys) and returns
`self._functions[version]` for the resolved version; a missing key there would
raise `KeyError` via `OverrideDict.__getitem__`. -/
def uncached_get {V : Type} (functions : OverrideDict Int V) (opset : Int) :
    Except PyError (Option V) :=
  match _dispatch_opset_version opset (dict_keys functions.merged) with
  | Except.error e => Except.error e
  | Except.ok none => Except.ok none
  | Except.ok (some version) =>
    match dict_get functions.merged version with
    | none => Except.error PyError.keyError
    | some f => Except.ok (some f)

/-- Translation of `_SymbolicFunctionGroup.get`: finds the most recent version
of the function, memoized by the requested opset.  A cache hit returns the
stored result; a miss computes the result and stores it (`lru_cache` does not
cache raised exceptions). -/
def SymbolicFunctionGroup.get {V : Type} (g : SymbolicFunctionGroup V) (opset : Int) :
    Except PyError (Option V × SymbolicFunctionGroup V) :=
  match dict_get g.cache opset with
  | some r => Except.ok (r, g)
  | none =>
    match uncached_get g.functions opset with
    | Except.error e => Except.error e
    | Except.ok r => Except.ok (r, { g with cache := dict_insert g.cache opset r })

/-- Result component of `_SymbolicFunctionGroup.get` (the returned optional
handler, discarding the updated memoization state). -/
def group_get_result {V : Type} (g : SymbolicFunctionGroup V) (opset : Int) :
    Except PyError (Option V) :=
  (g.get opset).map Prod.fst

/-- Translation of `_SymbolicFunctionGroup.__getitem__`: delegates to `get` and
raises `KeyError` when the result is `None`. -/
def SymbolicFunctionGroup.getitem {V : Type} (g : SymbolicFunctionGroup V) (key : Int) :
    Except PyError (V × SymbolicFunctionGroup V) :=
  match g.get key with
  | Except.error e => Except.error e
  | Except.ok (none, _) => Except.error PyError.keyError
  | Except.ok (some f, g₂) => Except.ok (f, g₂)

/-- Translation of `_SymbolicFunctionGroup.add`: warns (returned `Bool`) when
the opset is already in the base layer, stores the function via
`OverrideDict.__setitem__` either way, and clears the `get` cache. -/
def SymbolicFunctionGroup.add {V : Type} (g : SymbolicFunctionGroup V)
    (func : V) (opset : Int) : SymbolicFunctionGroup V × Bool :=
  let warned := g.functions.in_base opset
  ({ g with functions := g.functions.setitem opset func, cache := [] }, warned)

/-- Translation of `_SymbolicFunctionGroup.add_custom`: stores the function in
the override layer and clears the `get` cache. -/
def SymbolicFunctionGroup.add_custom {V : Type} (g : SymbolicFunctionGroup V)
    (func : V) (opset : Int) : SymbolicFunctionGroup V :=
  { g with functions := g.functions.override opset func, cache := [] }

/-- Translation of `_SymbolicFunctionGroup.remove_custom`: when the opset is
not overridden, warns (returned `Bool`) and returns without touching the state
(in particular without clearing the cache); otherwise removes the override and
clears the `get` cache. -/
def SymbolicFunctionGroup.remove_custom {V : Type} (g : SymbolicFunctionGroup V)
    (opset : Int) : SymbolicFunctionGroup V × Bool :=
  if g.functions.overridden opset = false then (g, true)
  else ({ g with functions := g.functions.remove_override opset, cache := [] }, false)

/-- Translation of `_SymbolicFunctionGroup.get_min_supported`:
`min(self._functions)` iterates the merged keys; Python's `min` raises
`ValueError` on an empty iterable. -/
def SymbolicFunctionGroup.get_min_supported {V : Type} (g : SymbolicFunctionGroup V) :
    Except PyError Int :=
  match (dict_keys g.functions.merged).min? with
  | none => Except.error PyError.valueError
  | some m => Except.ok m

/-! ### `SymbolicRegistry` -/

/-- Python `"::" in name`: the two-character pattern `::` occurs iff two
adjacent colons occur. -/
def has_double_colon : List Char → Bool
  | [] => false
  | [_] => false
  | a :: b :: rest => (a = ':' && b = ':') || has_double_colon (b :: rest)

/-- Translation of `SymbolicRegistry`: a mapping from qualified names to
symbolic function groups. -/
structure SymbolicRegistry (V : Type) where
  registry : List (String × SymbolicFunctionGroup V)
deriving DecidableEq, Repr

/-- Translation of `SymbolicRegistry.__init__`: the empty registry. -/
def SymbolicRegistry.empty {V : Type} : SymbolicRegistry V :=
  ⟨[]⟩

/-- Translation of `SymbolicRegistry.register`: raises `ValueError` when the
name lacks `::`, otherwise `setdefault`s the group for the name and delegates
to `add` or `add_custom`; the returned `Bool` is the re-registration warning
flag from `add`. -/
def SymbolicRegistry.register {V : Type} (r : SymbolicRegistry V) (name : String)
    (opset : Int) (func : V) (custom : Bool) :
    Except PyError (SymbolicRegistry V × Bool) :=
  if has_double_colon name.toList = false then Except.error PyError.valueError
  else
    let symbolic_functions :=
      (dict_get r.registry name).getD ⟨name, OverrideDict.empty, []⟩
    if custom then
      Except.ok
        (⟨dict_insert r.registry name (symbolic_functions.add_custom func opset)⟩, false)
    else
      let p := symbolic_functions.add func opset
      Except.ok (⟨dict_insert r.registry name p.1⟩, p.2)

/-- Translation of `SymbolicRegistry.unregister`: a no-op for an unknown name,
otherwise delegates to `remove_custom` (the `Bool` is its warning flag). -/
def SymbolicRegistry.unregister {V : Type} (r : SymbolicRegistry V) (name : String)
    (opset : Int) : SymbolicRegistry V × Bool :=
  match dict_get r.registry name with
  | none => (r, false)
  | some g =>
    let p := g.remove_custom opset
    (⟨dict_insert r.registry name p.1⟩, p.2)

/-- Translation of `SymbolicRegistry.get_function_group`: plain lookup. -/
def SymbolicRegistry.get_function_group {V : Type} (r : SymbolicRegistry V)
    (name : String) : Option (SymbolicFunctionGroup V) :=
  dict_get r.registry name

/-- Translation of `SymbolicRegistry.is_registered_op`: `False` for an unknown
name, otherwise whether `get` resolves a handler (the group's memoization state
written by `get` is threaded back into the registry). -/
def SymbolicRegistry.is_registered_op {V : Type} (r : SymbolicRegistry V)
    (name : String) (version : Int) : Except PyError (Bool × SymbolicRegistry V) :=
  match dict_get r.registry name with
  | none => Except.ok (false, r)
  | some g =>
    match g.get version with
    | Except.error e => Except.error e
    | Except.ok (res, g₂) => Except.ok (res.isSome, ⟨dict_insert r.registry name g₂⟩)

/-- Translation of `SymbolicRegistry.all_functions`: the registered names. -/
def SymbolicRegistry.all_functions {V : Type} (r : SymbolicRegistry V) : List String :=
  dict_keys r.registry

/-! ### Operation sequences

The claims about cache coherence and the merged-view invariant quantify over
arbitrary sequences of mutations; these small op languages and their `run`
functions make that quantification explicit. -/

/-- Mutating operations of `OverrideDict`. -/
inductive DOp (K V : Type)
  | setitem (k : K) (v : V)
  | override (k : K) (v : V)
  | remove_override (k : K)

/-- Applies one `OverrideDict` operation. -/
def dict_step {K V : Type} [DecidableEq K] (d : OverrideDict K V) : DOp K V → OverrideDict K V
  | DOp.setitem k v => d.setitem k v
  | DOp.override k v => d.override k v
  | DOp.remove_override k => d.remove_override k

/-- Runs a sequence of `OverrideDict` operations from the empty dictionary. -/
def run_dict_ops {K V : Type} [DecidableEq K] (ops : List (DOp K V)) : OverrideDict K V :=
  ops.foldl dict_step OverrideDict.empty

/-- Operations of `_SymbolicFunctionGroup`: the three mutators and `get`. -/
inductive GOp (V : Type)
  | add (func : V) (opset : Int)
  | add_custom (func : V) (opset : Int)
  | remove_custom (opset : Int)
  | get (opset : Int)

/-- Applies one group operation to the group state.  A `get` that raises
leaves the state unchanged (`lru_cache` does not record exceptions). -/
def group_step {V : Type} (g : SymbolicFunctionGroup V) : GOp V → SymbolicFunctionGroup V
  | GOp.add f v => (g.add f v).1
  | GOp.add_custom f v => g.add_custom f v
  | GOp.remove_custom v => (g.remove_custom v).1
  | GOp.get v =>
    match g.get v with
    | Except.ok p => p.2
    | Except.error _ => g

/-- Runs a sequence of group operations from a freshly constructed group. -/
def run_group_ops {V : Type} (name : String) (ops : List (GOp V)) : SymbolicFunctionGroup V :=
  ops.foldl group_step ⟨name, OverrideDict.empty, []⟩

/-- Concrete group used by the resolution-monotonicity examples: base handlers
(encoded as the numerals 9, 11, 13) registered at opsets 9, 11 and 13. -/
def example_group : SymbolicFunctionGroup Nat :=
  run_group_ops ("aten::test") [GOp.add 9 9, GOp.add 11 11, GOp.add 13 13]

/-! ### Lemmas about the `dict` model -/

theorem rep_entry_fst {K V : Type} [DecidableEq K] (k : K) (v : V) (p : K × V) :
    (rep_entry k v p).1 = p.1 := by
  unfold rep_entry; split <;> rfl

theorem rep_entry_snd {K V : Type} [DecidableEq K] (k : K) (v : V) (p : K × V) :
    (rep_entry k v p).2 = if p.1 = k then v else p.2 := by
  unfold rep_entry
  by_cases h : p.1 = k <;> simp [h]

theorem rep_entry_of_ne {K V : Type} [DecidableEq K] {k : K} (v : V) {p : K × V}
    (h : p.1 ≠ k) : rep_entry k v p = p := by
  unfold rep_entry; simp [h]

theorem dict_keys_map_rep {K V : Type} [DecidableEq K] (k : K) (v : V)
    (l : List (K × V)) : dict_keys (l.map (rep_entry k v)) = dict_keys l := by
  unfold dict_keys
  rw [List.map_map]
  exact List.map_congr_left fun p _ => rep_entry_fst k v p

theorem any_key_iff {K V : Type} [DecidableEq K] {l : List (K × V)} {k : K} :
    (l.any fun p => decide (p.1 = k)) = true ↔ k ∈ dict_keys l := by
  rw [List.any_eq_true]
  constructor
  · rintro ⟨p, hp, he⟩
    exact (show p.1 = k by simpa using he) ▸ List.mem_map_of_mem Prod.fst hp
  · intro h
    obtain ⟨p, hp, he⟩ := List.mem_map.1 h
    exact ⟨p, hp, by simpa using he⟩

theorem map_rep_of_not_mem {K V : Type} [DecidableEq K] {l : List (K × V)} {k : K}
    (v : V) (h : k ∉ dict_keys l) : l.map (rep_entry k v) = l := by
  rw [show l.map (rep_entry k v) = l.map id from
      List.map_congr_left fun p hp =>
        rep_entry_of_ne v fun he => h (he ▸ List.mem_map_of_mem Prod.fst hp)]
  exact List.map_id l

theorem mem_keys_iff_isSome {K V : Type} [DecidableEq K] {l : List (K × V)} {k : K} :
    k ∈ dict_keys l ↔ (dict_get l k).isSome := by
  unfold dict_get
  rw [Option.isSome_map']
  constructor
  · intro h
    obtain ⟨p, hp, he⟩ := List.mem_map.1 h
    exact List.find?_isSome.2 ⟨p, hp, by simpa using he⟩
  · intro h
    obtain ⟨p, hp, he⟩ := List.find?_isSome.1 h
    exact (show p.1 = k by simpa using he) ▸ List.mem_map_of_mem Prod.fst hp

theorem dict_get_some_mem_keys {K V : Type} [DecidableEq K] {l : List (K × V)}
    {k : K} {v : V} (h : dict_get l k = some v) : k ∈ dict_keys l := by
  rw [mem_keys_iff_isSome, h]; rfl

theorem dict_get_none_iff {K V : Type} [DecidableEq K] {l : List (K × V)} {k : K} :
    dict_get l k = none ↔ k ∉ dict_keys l := by
  rw [mem_keys_iff_isSome]
  cases h : dict_get l k <;> simp [h]

theorem exists_find_of_mem_keys {K V : Type} [DecidableEq K] {l : List (K × V)} {k : K}
    (h : k ∈ dict_keys l) :
    ∃ p, l.find? (fun p => decide (p.1 = k)) = some p ∧ p.1 = k := by
  obtain ⟨p, hp, he⟩ := List.mem_map.1 h
  have hs : (l.find? fun p => decide (p.1 = k)).isSome :=
    List.find?_isSome.2 ⟨p, hp, by simpa using he⟩
  obtain ⟨q, hq⟩ := Option.isSome_iff_exists.1 hs
  exact ⟨q, hq, by simpa using List.find?_some hq⟩

theorem dict_get_insert {K V : Type} [DecidableEq K] (l : List (K × V)) (k q : K)
    (v : V) : dict_get (dict_insert l k v) q = if q = k then some v else dict_get l q := by
  unfold dict_insert
  by_cases hmem : k ∈ dict_keys l
  · rw [if_pos (any_key_iff.2 hmem)]
    unfold dict_get
    rw [List.find?_map]
    rw [show ((fun p : K × V => decide (p.1 = q)) ∘ rep_entry k v)
        = fun p : K × V => decide (p.1 = q) from
      funext fun p => by simp [Function.comp, rep_entry_fst]]
    by_cases hqk : q = k
    · subst hqk
      obtain ⟨p, hp, hpk⟩ := exists_find_of_mem_keys hmem
      rw [hp]
      simp [rep_entry, hpk]
    · rw [if_neg hqk]
      cases hfind : l.find? (fun p => decide (p.1 = q)) with
      | none => rfl
      | some p =>
        have hpq : p.1 = q := by simpa using List.find?_some hfind
        simp [rep_entry_of_ne v (hpq ▸ hqk)]
  · rw [if_neg (fun hc => hmem (any_key_iff.1 hc))]
    unfold dict_get
    rw [List.find?_append]
    by_cases hqk : q = k
    · subst hqk
      rw [List.find?_eq_none.2 fun p hp => by
        simp only [decide_eq_true_iff]
        exact fun he => hmem (he ▸ List.mem_map_of_mem Prod.fst hp)]
      rw [List.find?_cons_of_pos _ (by simp)]
      simp
    · rw [show ([(k, v)].find? fun p => decide (p.1 = q)) = none from
        List.find?_cons_of_neg _ (by simpa using Ne.symm hqk)]
      rw [Option.or_none, if_neg hqk]

theorem dict_get_pop_self {K V : Type} [DecidableEq K] (l : List (K × V)) (k : K) :
    dict_get (dict_pop l k) k = none := by
  unfold dict_get dict_pop
  rw [List.find?_eq_none.2 fun p hp => by
    have := (List.mem_filter.1 hp).2
    simp_all]
  rfl

theorem dict_get_pop_ne {K V : Type} [DecidableEq K] (l : List (K × V)) {k q : K}
    (h : q ≠ k) : dict_get (dict_pop l k) q = dict_get l q := by
  unfold dict_get dict_pop
  congr 1
  induction l with
  | nil => rfl
  | cons p l ih =>
    by_cases hpk : p.1 = k
    · rw [List.filter_cons_of_neg (by simp [hpk])]
      rw [ih, List.find?_cons_of_neg _ (by simpa [hpk] using Ne.symm h)]
    · rw [List.filter_cons_of_pos (by simp [hpk])]
      by_cases hpq : p.1 = q
      · rw [List.find?_cons_of_pos _ (by simp [hpq]),
          List.find?_cons_of_pos _ (by simp [hpq])]
      · rw [List.find?_cons_of_neg _ (by simp [hpq]),
          List.find?_cons_of_neg _ (by simp [hpq]), ih]

theorem dict_union_nil {K V : Type} [DecidableEq K] (b : List (K × V)) :
    dict_union b [] = b := rfl

theorem dict_union_cons {K V : Type} [DecidableEq K] (b : List (K × V)) (p : K × V)
    (o : List (K × V)) : dict_union b (p :: o) = dict_union (dict_insert b p.1 p.2) o := rfl

theorem dict_union_append_single {K V : Type} [DecidableEq K] (b o : List (K × V))
    (k : K) (v : V) : dict_union b (o ++ [(k, v)]) = dict_insert (dict_union b o) k v := by
  unfold dict_union
  rw [List.foldl_append]
  rfl

theorem dict_get_union_of_none {K V : Type} [DecidableEq K] {o : List (K × V)} {k : K}
    (h : dict_get o k = none) (b : List (K × V)) :
    dict_get (dict_union b o) k = dict_get b k := by
  induction o generalizing b with
  | nil => rfl
  | cons p o ih =>
    have hne : ¬ p.1 = k := by
      intro he
      rw [show dict_get (p :: o) k = some p.2 from by
        unfold dict_get
        rw [List.find?_cons_of_pos _ (by simpa using he)]
        rfl] at h
      exact Option.noConfusion h
    have htail : dict_get o k = none := by
      unfold dict_get at h ⊢
      rwa [List.find?_cons_of_neg _ (by simpa using hne)] at h
    rw [dict_union_cons, ih htail, dict_get_insert, if_neg (fun he => hne he.symm)]

theorem dict_get_union_of_some {K V : Type} [DecidableEq K] {o : List (K × V)}
    {k : K} {w : V} (hnd : (dict_keys o).Nodup) (h : dict_get o k = some w)
    (b : List (K × V)) : dict_get (dict_union b o) k = some w := by
  induction o generalizing b with
  | nil => exact absurd h (by simp [dict_get])
  | cons p o ih =>
    rw [dict_keys, List.map_cons, List.nodup_cons] at hnd
    by_cases hpk : p.1 = k
    · have hw : p.2 = w := by
        unfold dict_get at h
        rw [List.find?_cons_of_pos _ (by simpa using hpk)] at h
        simpa using h
      have hnot : dict_get o k = none :=
        dict_get_none_iff.2 (fun hc => hnd.1 (hpk ▸ hc))
      rw [dict_union_cons, dict_get_union_of_none hnot, dict_get_insert,
        if_pos hpk.symm, hw]
    · have htail : dict_get o k = some w := by
        unfold dict_get at h ⊢
        rwa [List.find?_cons_of_neg _ (by simpa using hpk)] at h
      rw [dict_union_cons, ih hnd.2 htail]

theorem mem_keys_insert_self {K V : Type} [DecidableEq K] (l : List (K × V)) (k : K)
    (v : V) : k ∈ dict_keys (dict_insert l k v) := by
  rw [mem_keys_iff_isSome, dict_get_insert, if_pos rfl]
  rfl

theorem mem_keys_insert_of_mem {K V : Type} [DecidableEq K] {l : List (K × V)} {q : K}
    (k : K) (v : V) (h : q ∈ dict_keys l) : q ∈ dict_keys (dict_insert l k v) := by
  rw [mem_keys_iff_isSome] at h ⊢
  rw [dict_get_insert]
  by_cases hqk : q = k
  · rw [if_pos hqk]; rfl
  · rwa [if_neg hqk]

theorem mem_keys_union_left {K V : Type} [DecidableEq K] {b : List (K × V)} {k : K}
    (h : k ∈ dict_keys b) (o : List (K × V)) : k ∈ dict_keys (dict_union b o) := by
  induction o generalizing b with
  | nil => exact h
  | cons p o ih => exact dict_union_cons b p o ▸ ih (mem_keys_insert_of_mem p.1 p.2 h)

theorem mem_keys_union_right {K V : Type} [DecidableEq K] {o : List (K × V)} {k : K}
    (h : k ∈ dict_keys o) (b : List (K × V)) : k ∈ dict_keys (dict_union b o) := by
  induction o generalizing b with
  | nil => simp [dict_keys] at h
  | cons p o ih =>
    rw [dict_keys, List.map_cons, List.mem_cons] at h
    rcases h with rfl | h
    · rw [dict_union_cons]
      exact mem_keys_union_left (mem_keys_insert_self b p.1 p.2) o
    · exact dict_union_cons b p o ▸ ih h (dict_insert b p.1 p.2)

theorem map_rep_rep {K V : Type} [DecidableEq K] (k : K) (v w : V) (l : List (K × V)) :
    (l.map (rep_entry k w)).map (rep_entry k v) = l.map (rep_entry k v) := by
  rw [List.map_map]
  refine List.map_congr_left fun p _ => ?_
  unfold Function.comp rep_entry
  by_cases h : p.1 = k <;> simp [h]

theorem any_key_map_rep {K V : Type} [DecidableEq K] (k k₁ : K) (v : V)
    (l : List (K × V)) :
    ((l.map (rep_entry k v)).any fun p => decide (p.1 = k₁))
      = (l.any fun p => decide (p.1 = k₁)) := by
  rw [List.any_map]
  rw [show ((fun p : K × V => decide (p.1 = k₁)) ∘ rep_entry k v)
      = fun p : K × V => decide (p.1 = k₁) from
    funext fun p => by simp [Function.comp, rep_entry_fst]]

theorem rep_entry_comm {K V : Type} [DecidableEq K] (k k₁ : K) (v w : V) (p : K × V) :
    rep_entry k₁ (if k₁ = k then v else w) (rep_entry k v p)
      = rep_entry k v (rep_entry k₁ w p) := by
  by_cases h1 : p.1 = k₁ <;> by_cases h2 : p.1 = k
  · have h3 : k₁ = k := h1 ▸ h2
    rw [if_pos h3]
    rw [show rep_entry k v p = (p.1, v) from by unfold rep_entry; rw [if_pos h2]]
    rw [show rep_entry k₁ w p = (p.1, w) from by unfold rep_entry; rw [if_pos h1]]
    unfold rep_entry
    simp [h1, h2, h3]
  · have h3 : ¬ k₁ = k := fun he => h2 (h1.trans he)
    rw [if_neg h3]
    rw [show rep_entry k v p = p from rep_entry_of_ne v h2]
    rw [show rep_entry k₁ w p = (p.1, w) from by unfold rep_entry; rw [if_pos h1]]
    unfold rep_entry
    simp [h1, h3, fun he => h2 (show p.1 = k from he)]
  · have h3 : ¬ k₁ = k := fun he => h1 (h2.trans he.symm)
    rw [if_neg h3]
    rw [show rep_entry k v p = (p.1, v) from by unfold rep_entry; rw [if_pos h2]]
    rw [show rep_entry k₁ w p = p from rep_entry_of_ne w h1]
    unfold rep_entry
    simp [h1, h2, Ne.symm h3]
  · rw [rep_entry_of_ne v h2, rep_entry_of_ne w h1, rep_entry_of_ne _ h1,
      rep_entry_of_ne v h2]

theorem dict_insert_map_rep {K V : Type} [DecidableEq K] (k k₁ : K) (v w : V)
    (l : List (K × V)) :
    dict_insert (l.map (rep_entry k v)) k₁ (if k₁ = k then v else w)
      = (dict_insert l k₁ w).map (rep_entry k v) := by
  unfold dict_insert
  rw [any_key_map_rep]
  by_cases hany : (l.any fun p => decide (p.1 = k₁)) = true
  · rw [if_pos hany, if_pos hany]
    rw [List.map_map, List.map_map]
    refine List.map_congr_left fun p _ => ?_
    exact rep_entry_comm k k₁ v w p
  · rw [if_neg hany, if_neg hany]
    rw [List.map_append]
    congr 1
    unfold rep_entry
    by_cases h : k₁ = k <;> simp [h]

theorem map_rep_insert_self {K V : Type} [DecidableEq K] (k : K) (v w : V)
    (l : List (K × V)) :
    (dict_insert l k w).map (rep_entry k v) = dict_insert l k v := by
  unfold dict_insert
  by_cases hany : (l.any fun p => decide (p.1 = k)) = true
  · rw [if_pos hany, if_pos hany, map_rep_rep]
  · rw [if_neg hany, if_neg hany, List.map_append,
      map_rep_of_not_mem v (fun hc => hany (any_key_iff.2 hc))]
    congr 1
    simp [rep_entry]

theorem dict_union_map_rep {K V : Type} [DecidableEq K] (k : K) (v : V) :
    ∀ (o b : List (K × V)),
      dict_union (b.map (rep_entry k v)) (o.map (rep_entry k v))
        = (dict_union b o).map (rep_entry k v)
  | [], b => rfl
  | p :: o, b => by
    rw [List.map_cons, dict_union_cons, dict_union_cons]
    rw [show (rep_entry k v p).1 = p.1 from rep_entry_fst k v p]
    rw [show (rep_entry k v p).2 = if p.1 = k then v else p.2 from rep_entry_snd k v p]
    rw [dict_insert_map_rep]
    exact dict_union_map_rep k v o (dict_insert b p.1 p.2)

theorem dict_union_map_rep_of_mem {K V : Type} [DecidableEq K] {k : K} (v : V) :
    ∀ {o : List (K × V)}, k ∈ dict_keys o → ∀ (b : List (K × V)),
      dict_union b (o.map (rep_entry k v)) = (dict_union b o).map (rep_entry k v)
  | [], h, b => by simp [dict_keys] at h
  | p :: o, h, b => by
    rw [List.map_cons, dict_union_cons, dict_union_cons]
    rw [show (rep_entry k v p).1 = p.1 from rep_entry_fst k v p]
    by_cases hpk : p.1 = k
    · rw [show (rep_entry k v p).2 = v from by rw [rep_entry_snd, if_pos hpk]]
      rw [← dict_union_map_rep, ← hpk, map_rep_insert_self, hpk]
    · rw [show (rep_entry k v p).2 = p.2 from by rw [rep_entry_snd, if_neg hpk]]
      have hk : k ∈ dict_keys o := by
        rw [dict_keys, List.map_cons, List.mem_cons] at h
        exact h.resolve_left (fun he => hpk he.symm)
      exact dict_union_map_rep_of_mem v hk (dict_insert b p.1 p.2)

theorem dict_insert_union {K V : Type} [DecidableEq K] (b o : List (K × V)) (k : K)
    (v : V) : dict_insert (dict_union b o) k v = dict_union b (dict_insert o k v) := by
  by_cases hmem : k ∈ dict_keys o
  · rw [show dict_insert o k v = o.map (rep_entry k v) from by
      unfold dict_insert; rw [if_pos (any_key_iff.2 hmem)]]
    rw [dict_union_map_rep_of_mem v hmem b]
    unfold dict_insert
    rw [if_pos (any_key_iff.2 (mem_keys_union_right hmem b))]
  · rw [show dict_insert o k v = o ++ [(k, v)] from by
      unfold dict_insert; rw [if_neg (fun hc => hmem (any_key_iff.1 hc))]]
    rw [dict_union_append_single]

/-! ### Key uniqueness and the `OverrideDict` merged-view invariant -/

/-- Association lists reachable through `dict_insert`/`dict_pop` have unique
keys, matching the Python `dict` they model. -/
def dict_nodup_keys {K V : Type} (l : List (K × V)) : Prop :=
  (dict_keys l).Nodup

theorem dict_nodup_keys_nil {K V : Type} : dict_nodup_keys ([] : List (K × V)) :=
  List.nodup_nil

theorem dict_nodup_keys_insert {K V : Type} [DecidableEq K] {l : List (K × V)}
    (h : dict_nodup_keys l) (k : K) (v : V) : dict_nodup_keys (dict_insert l k v) := by
  unfold dict_insert
  by_cases hmem : k ∈ dict_keys l
  · rw [if_pos (any_key_iff.2 hmem)]
    unfold dict_nodup_keys
    rw [dict_keys_map_rep]
    exact h
  · rw [if_neg (fun hc => hmem (any_key_iff.1 hc))]
    unfold dict_nodup_keys dict_keys
    rw [List.map_append]
    simp only [List.map_cons, List.map_nil]
    rw [List.nodup_append]
    refine ⟨h, List.nodup_singleton k, fun a ha hak => ?_⟩
    rw [List.mem_singleton] at hak
    exact hmem (hak ▸ ha)

theorem dict_nodup_keys_pop {K V : Type} [DecidableEq K] {l : List (K × V)}
    (h : dict_nodup_keys l) (k : K) : dict_nodup_keys (dict_pop l k) :=
  ((List.filter_sublist l).map Prod.fst).nodup h

/-- Invariant of `OverrideDict`: the `_merged` dictionary is exactly
`{**base, **overrides}`, and the two layers have unique keys. -/
structure OverrideDictInv {K V : Type} [DecidableEq K] (d : OverrideDict K V) : Prop where
  merged_eq : d.merged = dict_union d.base d.overrides
  base_nodup : dict_nodup_keys d.base
  overrides_nodup : dict_nodup_keys d.overrides

theorem overrideDictInv_empty {K V : Type} [DecidableEq K] :
    OverrideDictInv (OverrideDict.empty : OverrideDict K V) :=
  ⟨rfl, dict_nodup_keys_nil, dict_nodup_keys_nil⟩

theorem overrideDictInv_setitem {K V : Type} [DecidableEq K] {d : OverrideDict K V}
    (h : OverrideDictInv d) (k : K) (v : V) : OverrideDictInv (d.setitem k v) :=
  ⟨rfl, dict_nodup_keys_insert h.base_nodup k v, h.overrides_nodup⟩

theorem overrideDictInv_override {K V : Type} [DecidableEq K] {d : OverrideDict K V}
    (h : OverrideDictInv d) (k : K) (v : V) : OverrideDictInv (d.override k v) := by
  refine ⟨?_, h.base_nodup, dict_nodup_keys_insert h.overrides_nodup k v⟩
  show dict_insert d.merged k v = dict_union d.base (dict_insert d.overrides k v)
  rw [h.merged_eq, dict_insert_union]

theorem overrideDictInv_remove_override {K V : Type} [DecidableEq K]
    {d : OverrideDict K V} (h : OverrideDictInv d) (k : K) :
    OverrideDictInv (d.remove_override k) :=
  ⟨rfl, h.base_nodup, dict_nodup_keys_pop h.overrides_nodup k⟩

/-- Claim C7 invariant holds at every dictionary reachable by a sequence of
mutations from the empty `OverrideDict`. -/
theorem overrideDictInv_run {K V : Type} [DecidableEq K] (ops : List (DOp K V)) :
    OverrideDictInv (run_dict_ops ops) := by
  suffices h : ∀ (ops : List (DOp K V)) (d : OverrideDict K V), OverrideDictInv d →
      OverrideDictInv (ops.foldl dict_step d) from
    h ops OverrideDict.empty overrideDictInv_empty
  intro ops
  induction ops with
  | nil => exact fun d hd => hd
  | cons op ops ih =>
    intro d hd
    refine ih _ ?_
    cases op with
    | setitem k v => exact overrideDictInv_setitem hd k v
    | override k v => exact overrideDictInv_override hd k v
    | remove_override k => exact overrideDictInv_remove_override hd k

/-! ### Cache coherence of `_SymbolicFunctionGroup.get` -/

/-- Coherence of the memoization cache: every stored entry equals the result
of the uncached computation on the current function set. -/
def cache_ok {V : Type} (g : SymbolicFunctionGroup V) : Prop :=
  ∀ (k : Int) (r : Option V), dict_get g.cache k = some r →
    uncached_get g.functions k = Except.ok r

theorem cache_ok_of_nil {V : Type} {g : SymbolicFunctionGroup V} (h : g.cache = []) :
    cache_ok g := by
  intro k r hk
  rw [h] at hk
  exact absurd hk (by simp [dict_get])

theorem cache_ok_get_result {V : Type} {g : SymbolicFunctionGroup V} (h : cache_ok g)
    (v : Int) : group_get_result g v = uncached_get g.functions v := by
  unfold group_get_result SymbolicFunctionGroup.get
  cases hc : dict_get g.cache v with
  | some r => rw [h v r hc]; rfl
  | none =>
    cases hu : uncached_get g.functions v with
    | error e => rfl
    | ok r => rfl

theorem get_ok_functions {V : Type} {g g₂ : SymbolicFunctionGroup V} {v : Int}
    {r : Option V} (h : g.get v = Except.ok (r, g₂)) : g₂.functions = g.functions := by
  unfold SymbolicFunctionGroup.get at h
  cases hc : dict_get g.cache v with
  | some r0 =>
    rw [hc] at h
    cases h
    rfl
  | none =>
    rw [hc] at h
    cases hu : uncached_get g.functions v with
    | error e => rw [hu] at h; exact absurd h (by simp)
    | ok r1 =>
      rw [hu] at h
      cases h
      rfl

theorem get_ok_cache_ok {V : Type} {g g₂ : SymbolicFunctionGroup V} {v : Int}
    {r : Option V} (hok : cache_ok g) (h : g.get v = Except.ok (r, g₂)) :
    cache_ok g₂ := by
  unfold SymbolicFunctionGroup.get at h
  cases hc : dict_get g.cache v with
  | some r0 =>
    rw [hc] at h
    cases h
    exact hok
  | none =>
    rw [hc] at h
    cases hu : uncached_get g.functions v with
    | error e => rw [hu] at h; exact absurd h (by simp)
    | ok r1 =>
      rw [hu] at h
      have h2 := Except.ok.inj h
      have hg2 : ({ g with cache := dict_insert g.cache v r1 } :
          SymbolicFunctionGroup V) = g₂ := congrArg Prod.snd h2
      intro k r2 hk
      rw [← hg2] at hk
      change dict_get (dict_insert g.cache v r1) k = some r2 at hk
      rw [← hg2]
      show uncached_get g.functions k = Except.ok r2
      rw [dict_get_insert] at hk
      by_cases hkv : k = v
      · rw [if_pos hkv] at hk
        cases hk
        rw [hkv]
        exact hu
      · rw [if_neg hkv] at hk
        exact hok k r2 hk

theorem group_step_cache_ok {V : Type} {g : SymbolicFunctionGroup V} (hok : cache_ok g)
    (op : GOp V) : cache_ok (group_step g op) := by
  cases op with
  | add f v => exact cache_ok_of_nil rfl
  | add_custom f v => exact cache_ok_of_nil rfl
  | remove_custom v =>
    show cache_ok (g.remove_custom v).1
    unfold SymbolicFunctionGroup.remove_custom
    by_cases hov : g.functions.overridden v = false
    · rw [if_pos hov]
      exact hok
    · rw [if_neg hov]
      exact cache_ok_of_nil rfl
  | get v =>
    show cache_ok (match g.get v with
      | Except.ok p => p.2
      | Except.error _ => g)
    cases hg : g.get v with
    | ok p => exact get_ok_cache_ok hok (by rw [hg])
    | error e => exact hok

theorem group_step_functions_inv {V : Type} {g : SymbolicFunctionGroup V}
    (hinv : OverrideDictInv g.functions) (op : GOp V) :
    OverrideDictInv (group_step g op).functions := by
  cases op with
  | add f v => exact overrideDictInv_setitem hinv v f
  | add_custom f v => exact overrideDictInv_override hinv v f
  | remove_custom v =>
    show OverrideDictInv (g.remove_custom v).1.functions
    unfold SymbolicFunctionGroup.remove_custom
    by_cases hov : g.functions.overridden v = false
    · rw [if_pos hov]
      exact hinv
    · rw [if_neg hov]
      exact overrideDictInv_remove_override hinv v
  | get v =>
    show OverrideDictInv (match g.get v with
      | Except.ok p => p.2
      | Except.error _ => g).functions
    cases hg : g.get v with
    | ok p => rw [get_ok_functions (show g.get v = Except.ok (p.1, p.2) from by rw [hg])]; exact hinv
    | error e => exact hinv

theorem run_group_cache_ok {V : Type} (name : String) (ops : List (GOp V)) :
    cache_ok (run_group_ops name ops) := by
  suffices h : ∀ (ops : List (GOp V)) (g : SymbolicFunctionGroup V), cache_ok g →
      cache_ok (ops.foldl group_step g) from
    h ops _ (cache_ok_of_nil rfl)
  intro ops
  induction ops with
  | nil => exact fun g hg => hg
  | cons op ops ih => exact fun g hg => ih _ (group_step_cache_ok hg op)

theorem run_group_functions_inv {V : Type} (name : String) (ops : List (GOp V)) :
    OverrideDictInv (run_group_ops name ops).functions := by
  suffices h : ∀ (ops : List (GOp V)) (g : SymbolicFunctionGroup V),
      OverrideDictInv g.functions → OverrideDictInv (ops.foldl group_step g).functions from
    h ops _ overrideDictInv_empty
  intro ops
  induction ops with
  | nil => exact fun g hg => hg
  | cons op ops ih => exact fun g hg => ih _ (group_step_functions_inv hg op)

/-! ### Lemmas about the version-resolution scans -/

theorem find_max_of_desc {p : Int → Bool} :
    ∀ {M : List Int}, M.Pairwise (fun a b => b ≤ a) → ∀ {m : Int}, M.find? p = some m →
      ∀ x ∈ M, p x = true → x ≤ m
  | [], _, m, h => by simp at h
  | a :: M, hM, m, h => by
    rcases List.pairwise_cons.1 hM with ⟨ha, hM2⟩
    by_cases hpa : p a = true
    · rw [List.find?_cons_of_pos _ hpa] at h
      obtain rfl : a = m := by simpa using h
      intro x hx hpx
      rcases List.mem_cons.1 hx with rfl | hx2
      · exact le_refl _
      · exact ha x hx2
    · rw [List.find?_cons_of_neg _ hpa] at h
      intro x hx hpx
      rcases List.mem_cons.1 hx with rfl | hx2
      · exact absurd hpx hpa
      · exact find_max_of_desc hM2 h x hx2 hpx

theorem find_min_of_asc {p : Int → Bool} :
    ∀ {M : List Int}, M.Pairwise (fun a b : Int => a ≤ b) → ∀ {m : Int}, M.find? p = some m →
      ∀ x ∈ M, p x = true → m ≤ x
  | [], _, m, h => by simp at h
  | a :: M, hM, m, h => by
    rcases List.pairwise_cons.1 hM with ⟨ha, hM2⟩
    by_cases hpa : p a = true
    · rw [List.find?_cons_of_pos _ hpa] at h
      obtain rfl : a = m := by simpa using h
      intro x hx hpx
      rcases List.mem_cons.1 hx with rfl | hx2
      · exact le_refl _
      · exact ha x hx2
    · rw [List.find?_cons_of_neg _ hpa] at h
      intro x hx hpx
      rcases List.mem_cons.1 hx with rfl | hx2
      · exact absurd hpx hpa
      · exact find_min_of_asc hM2 h x hx2 hpx

theorem mem_sorted_reverse_iff {V : List Int} {x : Int} :
    x ∈ (List.insertionSort (fun a b : Int => a ≤ b) V).reverse ↔ x ∈ V := by
  rw [List.mem_reverse]
  exact List.mem_insertionSort _

theorem sorted_reverse_desc (V : List Int) :
    (List.insertionSort (fun a b : Int => a ≤ b) V).reverse.Pairwise
      (fun a b : Int => b ≤ a) := by
  rw [List.pairwise_reverse]
  exact List.sorted_insertionSort _ V

/-- When the first (downward) scan of `_dispatch_opset_version` succeeds, the
function returns the greatest available version `m` with
`ONNX_BASE_OPSET ≤ m ≤ target`. -/
theorem dispatch_max {target : Int} {V : List Int}
    (hex : ∃ v ∈ V, ONNX_BASE_OPSET ≤ v ∧ v ≤ target) :
    ∃ m, _dispatch_opset_version target V = Except.ok (some m) ∧ m ∈ V ∧
      ONNX_BASE_OPSET ≤ m ∧ m ≤ target ∧
      ∀ v ∈ V, ONNX_BASE_OPSET ≤ v → v ≤ target → v ≤ m := by
  obtain ⟨v0, hv0, hb0, ht0⟩ := hex
  have hne : ¬ V.isEmpty = true := by
    cases V with
    | nil => cases hv0
    | cons a V => simp
  have hsome : ((List.insertionSort (fun a b : Int => a ≤ b) V).reverse.find?
      (fun version => decide (ONNX_BASE_OPSET ≤ version ∧ version ≤ target))).isSome :=
    List.find?_isSome.2 ⟨v0, mem_sorted_reverse_iff.2 hv0, by simpa using ⟨hb0, ht0⟩⟩
  obtain ⟨m, hfind⟩ := Option.isSome_iff_exists.1 hsome
  have hpm : ONNX_BASE_OPSET ≤ m ∧ m ≤ target := by simpa using List.find?_some hfind
  have hmm : m ∈ V := mem_sorted_reverse_iff.1 (List.mem_of_find?_eq_some hfind)
  refine ⟨m, ?_, hmm, hpm.1, hpm.2, fun v hv hbv htv =>
    find_max_of_desc (sorted_reverse_desc V) hfind v
      (mem_sorted_reverse_iff.2 hv) (by simpa using ⟨hbv, htv⟩)⟩
  simp only [_dispatch_opset_version]
  rw [if_neg hne, hfind]

/-- When the first scan fails and the second (upward) scan succeeds, the
function returns the least available version `m` with `target ≤ m ≤
ONNX_BASE_OPSET`. -/
theorem dispatch_min {target : Int} {V : List Int}
    (hfail : ∀ v ∈ V, ¬(ONNX_BASE_OPSET ≤ v ∧ v ≤ target))
    (hex : ∃ v ∈ V, target ≤ v ∧ v ≤ ONNX_BASE_OPSET) :
    ∃ m, _dispatch_opset_version target V = Except.ok (some m) ∧ m ∈ V ∧
      target ≤ m ∧ m ≤ ONNX_BASE_OPSET ∧
      ∀ v ∈ V, target ≤ v → v ≤ ONNX_BASE_OPSET → m ≤ v := by
  obtain ⟨v0, hv0, ht0, hb0⟩ := hex
  have hne : ¬ V.isEmpty = true := by
    cases V with
    | nil => cases hv0
    | cons a V => simp
  have hnone1 : (List.insertionSort (fun a b : Int => a ≤ b) V).reverse.find?
      (fun version => decide (ONNX_BASE_OPSET ≤ version ∧ version ≤ target)) = none :=
    List.find?_eq_none.2 fun x hx => by
      simpa using hfail x (mem_sorted_reverse_iff.1 hx)
  have hsome : ((List.insertionSort (fun a b : Int => a ≤ b) V).find?
      (fun version => decide (target ≤ version ∧ version ≤ ONNX_BASE_OPSET))).isSome :=
    List.find?_isSome.2 ⟨v0, (List.mem_insertionSort _).2 hv0, by simpa using ⟨ht0, hb0⟩⟩
  obtain ⟨m, hfind⟩ := Option.isSome_iff_exists.1 hsome
  have hpm : target ≤ m ∧ m ≤ ONNX_BASE_OPSET := by simpa using List.find?_some hfind
  have hmm : m ∈ V := (List.mem_insertionSort _).1 (List.mem_of_find?_eq_some hfind)
  refine ⟨m, ?_, hmm, hpm.1, hpm.2, fun v hv htv hbv =>
    find_min_of_asc (List.sorted_insertionSort _ V) hfind v
      ((List.mem_insertionSort _).2 hv) (by simpa using ⟨htv, hbv⟩)⟩
  simp only [_dispatch_opset_version]
  rw [if_neg hne, hnone1, hfind]

/-- When the target version itself is available, the resolution returns it. -/
theorem dispatch_mem {target : Int} {V : List Int} (h : target ∈ V) :
    _dispatch_opset_version target V = Except.ok (some target) := by
  by_cases hb : ONNX_BASE_OPSET ≤ target
  · obtain ⟨m, hd, hmm, hbm, hmt, hmax⟩ := dispatch_max ⟨target, h, hb, le_refl _⟩
    rw [le_antisymm hmt (hmax target h hb (le_refl _))] at hd
    exact hd
  · push_neg at hb
    have hfail : ∀ v ∈ V, ¬(ONNX_BASE_OPSET ≤ v ∧ v ≤ target) :=
      fun v hv hc => absurd (le_trans hc.1 hc.2) (not_le.2 hb)
    obtain ⟨m, hd, hmm, htm, hmb, hmin⟩ :=
      dispatch_min hfail ⟨target, h, le_refl _, le_of_lt hb⟩
    rw [le_antisymm (hmin target h (le_refl _) (le_of_lt hb)) htm] at hd
    exact hd

/-- Inversion: the only error `_dispatch_opset_version` can signal is its
defensive assertion. -/
theorem dispatch_error_assertion {target : Int} {V : List Int} {e : PyError}
    (h : _dispatch_opset_version target V = Except.error e) :
    e = PyError.assertionError := by
  simp only [_dispatch_opset_version] at h
  split at h
  · exact absurd h (by simp)
  · split at h
    · exact absurd h (by simp)
    · split at h
      · exact absurd h (by simp)
      · split at h
        · exact absurd h (by simp)
        · exact (Except.error.inj h).symm

/-- Inversion: a successfully resolved version is one of the available ones. -/
theorem dispatch_ok_some_mem {target m : Int} {V : List Int}
    (h : _dispatch_opset_version target V = Except.ok (some m)) : m ∈ V := by
  simp only [_dispatch_opset_version] at h
  split at h
  · exact absurd h (by simp)
  · split at h
    next version heq =>
      obtain rfl : version = m := by simpa using h
      exact mem_sorted_reverse_iff.1 (List.mem_of_find?_eq_some heq)
    next heq1 =>
      split at h
      next version heq2 =>
        obtain rfl : version = m := by simpa using h
        exact (List.mem_insertionSort _).1 (List.mem_of_find?_eq_some heq2)
      next heq2 =>
        split at h
        · exact absurd h (by simp)
        · exact absurd h (by simp)

/-- Head of the ascending sort is the minimum of a non-empty list. -/
theorem sorted_headD_min {V : List Int} (hne : V ≠ []) :
    (List.insertionSort (fun a b : Int => a ≤ b) V).headD 0 ∈ V ∧
      ∀ x ∈ V, (List.insertionSort (fun a b : Int => a ≤ b) V).headD 0 ≤ x := by
  rcases hL : List.insertionSort (fun a b : Int => a ≤ b) V with _ | ⟨a, L2⟩
  · have hp := List.perm_insertionSort (fun a b : Int => a ≤ b) V
    rw [hL] at hp
    exact absurd hp.symm.eq_nil hne
  · have hsorted : List.Pairwise (fun a b : Int => a ≤ b) (a :: L2) := by
      rw [← hL]; exact List.sorted_insertionSort _ V
    have hmemV : ∀ x : Int, x ∈ a :: L2 ↔ x ∈ V := by
      intro x; rw [← hL]; exact List.mem_insertionSort _
    have hrel := (List.pairwise_cons.1 hsorted).1
    refine ⟨(hmemV a).1 (List.mem_cons_self a L2), fun x hx => ?_⟩
    rcases List.mem_cons.1 ((hmemV x).2 hx) with rfl | hx2
    · exact le_refl _
    · exact hrel x hx2

/-- Last element of the ascending sort is the maximum of a non-empty list. -/
theorem sorted_getLastD_max {V : List Int} (hne : V ≠ []) :
    (List.insertionSort (fun a b : Int => a ≤ b) V).getLastD 0 ∈ V ∧
      ∀ x ∈ V, x ≤ (List.insertionSort (fun a b : Int => a ≤ b) V).getLastD 0 := by
  have hrw : (List.insertionSort (fun a b : Int => a ≤ b) V).getLastD 0
      = (List.insertionSort (fun a b : Int => a ≤ b) V).reverse.headD 0 := by
    rw [List.getLastD_eq_getLast?, List.getLast?_eq_head?_reverse, List.headD_eq_head?_getD]
  rw [hrw]
  rcases hL : (List.insertionSort (fun a b : Int => a ≤ b) V).reverse with _ | ⟨a, L2⟩
  · rw [List.reverse_eq_nil_iff] at hL
    have hp := List.perm_insertionSort (fun a b : Int => a ≤ b) V
    rw [hL] at hp
    exact absurd hp.symm.eq_nil hne
  · have hsorted : List.Pairwise (fun a b : Int => b ≤ a) (a :: L2) := by
      rw [← hL]; exact sorted_reverse_desc V
    have hmemV : ∀ x : Int, x ∈ a :: L2 ↔ x ∈ V := by
      intro x; rw [← hL]; exact mem_sorted_reverse_iff
    have hrel := (List.pairwise_cons.1 hsorted).1
    refine ⟨(hmemV a).1 (List.mem_cons_self a L2), fun x hx => ?_⟩
    rcases List.mem_cons.1 ((hmemV x).2 hx) with rfl | hx2
    · exact le_refl _
    · exact hrel x hx2

/-- Inversion: the body of `get` can never raise `KeyError`, because the
dispatched version always comes from the merged key set. -/
theorem uncached_get_ne_keyerror {V : Type} (functions : OverrideDict Int V)
    (opset : Int) : uncached_get functions opset ≠ Except.error PyError.keyError := by
  unfold uncached_get
  split
  next e heq =>
    intro hc
    have h1 := Except.error.inj hc
    have h2 := dispatch_error_assertion heq
    rw [h2] at h1
    exact PyError.noConfusion h1
  next heq => simp
  next ver heq =>
    split
    next hget =>
      have hmem := dispatch_ok_some_mem heq
      rw [mem_keys_iff_isSome, hget] at hmem
      exact absurd hmem (by simp)
    next f hget => simp

/-- Inversion: `_SymbolicFunctionGroup.get` can never raise `KeyError`. -/
theorem group_get_ne_keyerror {V : Type} (g : SymbolicFunctionGroup V) (k : Int) :
    g.get k ≠ Except.error PyError.keyError := by
  unfold SymbolicFunctionGroup.get
  cases hc : dict_get g.cache k with
  | some r => simp
  | none =>
    cases hu : uncached_get g.functions k with
    | error e =>
      intro hcon
      have h1 := Except.error.inj hcon
      exact uncached_get_ne_keyerror g.functions k (h1 ▸ hu)
    | ok r => simp

/-! ### Claim theorems -/

/-- C10: subscript access `group[version]` (`_SymbolicFunctionGroup.__getitem__`)
raises `KeyError` exactly when the memoized resolution `get(version)` returns
absent, and otherwise returns the same handler that `get(version)` returns. -/
theorem getitem_keyerror_iff_get_none {V : Type} (g : SymbolicFunctionGroup V)
    (k : Int) :
    (g.getitem k = Except.error PyError.keyError ↔
      ∃ g₂, g.get k = Except.ok (none, g₂)) ∧
    (∀ (f : V) (g₂ : SymbolicFunctionGroup V), g.get k = Except.ok (some f, g₂) →
      g.getitem k = Except.ok (f, g₂)) := by
  constructor
  · constructor
    · intro h
      unfold SymbolicFunctionGroup.getitem at h
      cases hg : g.get k with
      | error e =>
        rw [hg] at h
        have he := Except.error.inj h
        exact absurd hg (he ▸ group_get_ne_keyerror g k)
      | ok p =>
        obtain ⟨r, g₂⟩ := p
        cases r with
        | none => exact ⟨g₂, rfl⟩
        | some f =>
          rw [hg] at h
          exact absurd h (by simp)
    · rintro ⟨g₂, hg⟩
      unfold SymbolicFunctionGroup.getitem
      rw [hg]
  · intro f g₂ hg
    unfold SymbolicFunctionGroup.getitem
    rw [hg]

/-- C10 witness: a concrete group where `get` resolves a handler, at which
`__getitem__` returns that same handler. -/
theorem getitem_keyerror_iff_get_none_witness :
    example_group.getitem 9 = Except.ok (9,
      { example_group with cache := dict_insert example_group.cache 9 (some 9) }) :=
  (getitem_keyerror_iff_get_none example_group 9).2 9 _ (by decide)

/-- C5: `SymbolicRegistry.register` with a name lacking the `::` separator
raises `ValueError` synchronously; no registry mutation can be observed since
the error is raised before the group is even looked up. -/
theorem register_invalid_name_raises {V : Type} (r : SymbolicRegistry V)
    (name : String) (opset : Int) (func : V) (custom : Bool)
    (h : has_double_colon name.toList = false) :
    r.register name opset func custom = Except.error PyError.valueError := by
  unfold SymbolicRegistry.register
  rw [if_pos h]

/-- C5 witness: registering `"badname"` fails with `ValueError`. -/
theorem register_invalid_name_raises_witness :
    (SymbolicRegistry.empty : SymbolicRegistry Nat).register ("badname") 9 7 false
      = Except.error PyError.valueError :=
  register_invalid_name_raises SymbolicRegistry.empty ("badname") 9 7 false (by decide)

/-- C8: `remove_custom` on a version that is not overridden is a pure no-op
that only warns (returned flag `true`), leaving the whole group state
(base, overrides, merged and cache) unchanged; consequently a second
`remove_custom` of the same version right after a first one is always such a
warning no-op. -/
theorem remove_custom_noop_idempotent {V : Type} :
    (∀ (g : SymbolicFunctionGroup V) (v : Int), g.functions.overridden v = false →
      g.remove_custom v = (g, true)) ∧
    (∀ (g : SymbolicFunctionGroup V) (v : Int),
      (g.remove_custom v).1.remove_custom v = ((g.remove_custom v).1, true)) := by
  have h1 : ∀ (g : SymbolicFunctionGroup V) (v : Int), g.functions.overridden v = false →
      g.remove_custom v = (g, true) := by
    intro g v h
    unfold SymbolicFunctionGroup.remove_custom
    rw [if_pos h]
  refine ⟨h1, fun g v => ?_⟩
  by_cases h : g.functions.overridden v = false
  · rw [h1 g v h]
    exact h1 g v h
  · have hrc : (g.remove_custom v).1
        = { g with functions := g.functions.remove_override v, cache := [] } := by
      unfold SymbolicFunctionGroup.remove_custom
      rw [if_neg h]
    rw [hrc]
    refine h1 _ v ?_
    show ((g.functions.remove_override v).overridden v) = false
    unfold OverrideDict.overridden
    show (dict_get (dict_pop g.functions.overrides v) v).isSome = false
    rw [dict_get_pop_self]
    rfl

/-- C8 witness: removing a custom override twice on a concrete group; the
first call on a never-overridden version is already a warning no-op. -/
theorem remove_custom_noop_idempotent_witness :
    example_group.remove_custom 12 = (example_group, true) ∧
    (example_group.remove_custom 12).1.remove_custom 12
      = ((example_group.remove_custom 12).1, true) :=
  ⟨remove_custom_noop_idempotent.1 example_group 12 (by decide),
    remove_custom_noop_idempotent.2 example_group 12⟩

/-- C9: `get_min_supported` returns the minimum key of the merged view when
any version is registered, and signals Python's `ValueError` (from `min` on an
empty iterable) on an empty group instead of returning a sentinel. -/
theorem get_min_supported_spec {V : Type} (g : SymbolicFunctionGroup V) :
    (g.functions.merged ≠ [] →
      ∃ m, g.get_min_supported = Except.ok m ∧ m ∈ dict_keys g.functions.merged ∧
        ∀ k ∈ dict_keys g.functions.merged, m ≤ k) ∧
    (g.functions.merged = [] →
      g.get_min_supported = Except.error PyError.valueError) := by
  constructor
  · intro hne
    have hkeysne : dict_keys g.functions.merged ≠ [] := by
      unfold dict_keys
      simpa using hne
    cases hm : (dict_keys g.functions.merged).min? with
    | none => exact absurd (List.min?_eq_none_iff.1 hm) hkeysne
    | some m =>
      have hmem : m ∈ dict_keys g.functions.merged :=
        List.min?_mem (fun a b => Int.min_def a b ▸ by split <;> simp) hm
      have hle : ∀ k ∈ dict_keys g.functions.merged, m ≤ k := fun k hk =>
        (List.le_min?_iff (fun a b c => le_min_iff) hm).1 (le_refl m) k hk
      refine ⟨m, ?_, hmem, hle⟩
      unfold SymbolicFunctionGroup.get_min_supported
      rw [hm]
  · intro hnil
    unfold SymbolicFunctionGroup.get_min_supported
    rw [show dict_keys g.functions.merged = [] from by rw [hnil]; rfl]
    rfl

/-- C9 witness: the minimum on a populated group, and the error on a fresh
empty group. -/
theorem get_min_supported_spec_witness :
    (∃ m, example_group.get_min_supported = Except.ok m ∧
      m ∈ dict_keys example_group.functions.merged ∧
      ∀ k ∈ dict_keys example_group.functions.merged, m ≤ k) ∧
    (run_group_ops ("aten::none") ([] : List (GOp Nat))).get_min_supported
      = Except.error PyError.valueError :=
  ⟨(get_min_supported_spec example_group).1 (by decide),
    (get_min_supported_spec (run_group_ops ("aten::none") [])).2 rfl⟩

/-- C7: after every sequence of mutations (`__setitem__`, `override`,
`remove_override`) from the empty `OverrideDict`, the `_merged` dictionary the
read operations (`get`, `__getitem__`, `__contains__`, `__iter__`, `__len__`)
consult is exactly `{**base, **overrides}`. -/
theorem merged_always_base_updated_with_overrides {K V : Type} [DecidableEq K]
    (ops : List (DOp K V)) :
    (run_dict_ops ops).merged
        = dict_union (run_dict_ops ops).base (run_dict_ops ops).overrides ∧
      (∀ k : K, (run_dict_ops ops).get k
        = dict_get (dict_union (run_dict_ops ops).base (run_dict_ops ops).overrides) k) ∧
      (run_dict_ops ops).keys
        = dict_keys (dict_union (run_dict_ops ops).base (run_dict_ops ops).overrides) ∧
      (run_dict_ops ops).size
        = (dict_union (run_dict_ops ops).base (run_dict_ops ops).overrides).length := by
  have hm := (overrideDictInv_run ops).merged_eq
  exact ⟨hm, fun k => by unfold OverrideDict.get; rw [hm],
    by unfold OverrideDict.keys; rw [hm], by unfold OverrideDict.size; rw [hm]⟩

/-- C3: at every group state reachable by a sequence of mutations
(`add`, `add_custom`, `remove_custom`) interleaved with `get` calls, a `get`
returns exactly the result of the resolution algorithm applied to the function
set as it stands at that moment — never a value cached against a superseded
version set. -/
theorem get_reflects_current_functions {V : Type} (name : String)
    (ops : List (GOp V)) (v : Int) :
    group_get_result (run_group_ops name ops) v
      = uncached_get (run_group_ops name ops).functions v :=
  cache_ok_get_result (run_group_cache_ok name ops) v

/-- C1 counterexample: with target `5` and available versions `{11}`, neither
scan finds a match (no `v` with `9 ≤ v ≤ 5`, none with `5 ≤ v ≤ 9`), yet
`_dispatch_opset_version` does not return absent: its defensive assertion
fails, i.e. it raises `AssertionError`. -/
theorem dispatch_none_claim_counterexample :
    (∀ v ∈ ([11] : List Int), ¬(ONNX_BASE_OPSET ≤ v ∧ v ≤ 5)) ∧
    (∀ v ∈ ([11] : List Int), ¬((5 : Int) ≤ v ∧ v ≤ ONNX_BASE_OPSET)) ∧
    _dispatch_opset_version 5 [11] = Except.error PyError.assertionError ∧
    _dispatch_opset_version 5 [11] ≠ Except.ok none := by
  decide

/-- C1 amended: when both scans fail on a non-empty available set, the
function returns absent exactly when the configuration is one of the two that
the defensive assertion admits — all available versions strictly above the
target with `ONNX_BASE_OPSET ≤ target`, or all strictly below the anchor with
`ONNX_BASE_OPSET < target`; in every other both-scans-fail configuration the
assertion fails (`AssertionError`) instead of returning absent. -/
theorem dispatch_both_scans_fail_characterization {target : Int} {V : List Int}
    (hne : V ≠ [])
    (h1 : ∀ v ∈ V, ¬(ONNX_BASE_OPSET ≤ v ∧ v ≤ target))
    (h2 : ∀ v ∈ V, ¬(target ≤ v ∧ v ≤ ONNX_BASE_OPSET)) :
    ((ONNX_BASE_OPSET ≤ target ∧ ∀ v ∈ V, target < v) ∨
        ((∀ v ∈ V, v < ONNX_BASE_OPSET) ∧ ONNX_BASE_OPSET < target) →
      _dispatch_opset_version target V = Except.ok none) ∧
    (¬((ONNX_BASE_OPSET ≤ target ∧ ∀ v ∈ V, target < v) ∨
        ((∀ v ∈ V, v < ONNX_BASE_OPSET) ∧ ONNX_BASE_OPSET < target)) →
      _dispatch_opset_version target V = Except.error PyError.assertionError) := by
  have hnel : ¬ V.isEmpty = true := by simpa [List.isEmpty_iff] using hne
  have hnone1 : (List.insertionSort (fun a b : Int => a ≤ b) V).reverse.find?
      (fun version => decide (ONNX_BASE_OPSET ≤ version ∧ version ≤ target)) = none :=
    List.find?_eq_none.2 fun x hx => by
      simpa using h1 x (mem_sorted_reverse_iff.1 hx)
  have hnone2 : (List.insertionSort (fun a b : Int => a ≤ b) V).find?
      (fun version => decide (target ≤ version ∧ version ≤ ONNX_BASE_OPSET)) = none :=
    List.find?_eq_none.2 fun x hx => by
      simpa using h2 x ((List.mem_insertionSort _).1 hx)
  have hLnil : List.insertionSort (fun a b : Int => a ≤ b) V = [] → V = [] := by
    intro hL
    have hp := List.perm_insertionSort (fun a b : Int => a ≤ b) V
    rw [hL] at hp
    exact hp.symm.eq_nil
  obtain ⟨hhead_mem, hhead_min⟩ := sorted_headD_min hne
  obtain ⟨hlast_mem, hlast_max⟩ := sorted_getLastD_max hne
  have hCiff : ((List.insertionSort (fun a b : Int => a ≤ b) V).isEmpty
        ∨ (ONNX_BASE_OPSET ≤ target
            ∧ target < (List.insertionSort (fun a b : Int => a ≤ b) V).headD 0)
        ∨ ((List.insertionSort (fun a b : Int => a ≤ b) V).getLastD 0 < ONNX_BASE_OPSET
            ∧ ONNX_BASE_OPSET < target))
      ↔ ((ONNX_BASE_OPSET ≤ target ∧ ∀ v ∈ V, target < v) ∨
          ((∀ v ∈ V, v < ONNX_BASE_OPSET) ∧ ONNX_BASE_OPSET < target)) := by
    constructor
    · rintro (hE | ⟨h9, hlt⟩ | ⟨hlt9, h9t⟩)
      · exact absurd (hLnil (List.isEmpty_iff.1 hE)) hne
      · exact Or.inl ⟨h9, fun v hv => lt_of_lt_of_le hlt (hhead_min v hv)⟩
      · exact Or.inr ⟨fun v hv => lt_of_le_of_lt (hlast_max v hv) hlt9, h9t⟩
    · rintro (⟨h9, hall⟩ | ⟨hall, h9t⟩)
      · exact Or.inr (Or.inl ⟨h9, hall _ hhead_mem⟩)
      · exact Or.inr (Or.inr ⟨hall _ hlast_mem, h9t⟩)
  constructor
  · intro hben
    simp only [_dispatch_opset_version]
    rw [if_neg hnel, hnone1, hnone2, if_pos (hCiff.2 hben)]
  · intro hben
    simp only [_dispatch_opset_version]
    rw [if_neg hnel, hnone1, hnone2, if_neg (fun hc => hben (hCiff.1 hc))]

/-- C1 amended witness: target `20` against available `{30}` is a
both-scans-fail configuration admitted by the assertion, and there the
function returns absent. -/
theorem dispatch_both_scans_fail_characterization_witness :
    _dispatch_opset_version 20 [30] = Except.ok none :=
  (@dispatch_both_scans_fail_characterization 20 [30]
    (by decide) (by decide) (by decide)).1 (by decide)

/-- C2: on a non-empty available set, the resolution returns the greatest
available `v` with `ONNX_BASE_OPSET ≤ v ≤ target` when one exists, otherwise
the least available `v` with `target ≤ v ≤ ONNX_BASE_OPSET` when one exists;
and concretely with available versions `{9, 11, 13}` (handlers encoded as the
numerals 9, 11, 13), `get(12)` resolves to the version-11 handler, `get(10)`
and `get(8)` to the version-9 handler and `get(14)` to the version-13
handler. -/
theorem resolution_directional_nearest :
    (∀ (target : Int) (V : List Int), V ≠ [] →
      ((∃ v ∈ V, ONNX_BASE_OPSET ≤ v ∧ v ≤ target) →
        ∃ m, _dispatch_opset_version target V = Except.ok (some m) ∧ m ∈ V ∧
          ONNX_BASE_OPSET ≤ m ∧ m ≤ target ∧
          ∀ v ∈ V, ONNX_BASE_OPSET ≤ v → v ≤ target → v ≤ m) ∧
      ((∀ v ∈ V, ¬(ONNX_BASE_OPSET ≤ v ∧ v ≤ target)) →
        (∃ v ∈ V, target ≤ v ∧ v ≤ ONNX_BASE_OPSET) →
        ∃ m, _dispatch_opset_version target V = Except.ok (some m) ∧ m ∈ V ∧
          target ≤ m ∧ m ≤ ONNX_BASE_OPSET ∧
          ∀ v ∈ V, target ≤ v → v ≤ ONNX_BASE_OPSET → m ≤ v)) ∧
    group_get_result example_group 12 = Except.ok (some 11) ∧
    group_get_result example_group 10 = Except.ok (some 9) ∧
    group_get_result example_group 8 = Except.ok (some 9) ∧
    group_get_result example_group 14 = Except.ok (some 13) :=
  ⟨fun target V hne => ⟨fun hex => dispatch_max hex, fun hfail hex => dispatch_min hfail hex⟩,
    by decide, by decide, by decide, by decide⟩

/-- C2 witness: the downward case at target `12` over `{9, 11, 13}` resolves
to the greatest in-range version. -/
theorem resolution_directional_nearest_witness :
    ∃ m, _dispatch_opset_version 12 [9, 11, 13] = Except.ok (some m) ∧
      m ∈ ([9, 11, 13] : List Int) ∧ ONNX_BASE_OPSET ≤ m ∧ m ≤ 12 ∧
      ∀ v ∈ ([9, 11, 13] : List Int), ONNX_BASE_OPSET ≤ v → v ≤ 12 → v ≤ m :=
  (resolution_directional_nearest.1 12 [9, 11, 13] (by decide)).1 (by decide)

/-- C4: on any reachable group state where a base handler and a custom
handler are both registered at the same version, `get(version)` returns the
custom handler, and after `remove_custom(version)` it returns the base
handler again. -/
theorem override_precedence_and_revert {V : Type} (name : String)
    (ops : List (GOp V)) (version : Int) (base_handler custom_handler : V)
    (hb : dict_get (run_group_ops name ops).functions.base version = some base_handler)
    (hc : dict_get (run_group_ops name ops).functions.overrides version
      = some custom_handler) :
    group_get_result (run_group_ops name ops) version
        = Except.ok (some custom_handler) ∧
      group_get_result ((run_group_ops name ops).remove_custom version).1 version
        = Except.ok (some base_handler) := by
  have hinv := run_group_functions_inv name ops
  constructor
  · rw [cache_ok_get_result (run_group_cache_ok name ops) version]
    have hmerged : dict_get (run_group_ops name ops).functions.merged version
        = some custom_handler := by
      rw [hinv.merged_eq]
      exact dict_get_union_of_some hinv.overrides_nodup hc _
    unfold uncached_get
    rw [dispatch_mem (dict_get_some_mem_keys hmerged)]
    show (match dict_get (run_group_ops name ops).functions.merged version with
      | none => Except.error PyError.keyError
      | some f => Except.ok (some f)) = Except.ok (some custom_handler)
    rw [hmerged]
  · have hov : ¬ (run_group_ops name ops).functions.overridden version = false := by
      unfold OverrideDict.overridden
      rw [hc]
      simp
    have hrc : ((run_group_ops name ops).remove_custom version).1
        = { run_group_ops name ops with
            functions := (run_group_ops name ops).functions.remove_override version,
            cache := [] } := by
      unfold SymbolicFunctionGroup.remove_custom
      rw [if_neg hov]
    rw [hrc, cache_ok_get_result (cache_ok_of_nil rfl) version]
    show uncached_get ((run_group_ops name ops).functions.remove_override version)
      version = Except.ok (some base_handler)
    have hmerged2 : dict_get
        ((run_group_ops name ops).functions.remove_override version).merged version
        = some base_handler := by
      show dict_get (dict_union (run_group_ops name ops).functions.base
        (dict_pop (run_group_ops name ops).functions.overrides version)) version
        = some base_handler
      rw [dict_get_union_of_none (dict_get_pop_self _ _)]
      exact hb
    unfold uncached_get
    rw [dispatch_mem (dict_get_some_mem_keys hmerged2)]
    show (match dict_get
        ((run_group_ops name ops).functions.remove_override version).merged version with
      | none => Except.error PyError.keyError
      | some f => Except.ok (some f)) = Except.ok (some base_handler)
    rw [hmerged2]

/-- C4 witness: a group with base handler `1` and custom handler `2` both at
version 9; `get 9` returns `2`, and after `remove_custom 9` it returns `1`. -/
theorem override_precedence_and_revert_witness :
    group_get_result (run_group_ops ("aten::foo") [GOp.add 1 9, GOp.add_custom 2 9]) 9
        = Except.ok (some 2) ∧
      group_get_result ((run_group_ops ("aten::foo")
          [GOp.add 1 9, GOp.add_custom 2 9]).remove_custom 9).1 9
        = Except.ok (some 1) :=
  override_precedence_and_revert ("aten::foo") [GOp.add 1 9, GOp.add_custom 2 9] 9 1 2
    (by decide) (by decide)

/-- C6: after a valid non-custom `register(name, opset, func)` on a registry
whose group for `name` (if any) carries no custom override at `opset`,
`is_registered_op(name, opset)` is true and `get_function_group(name)` yields
a group whose `get(opset)` returns exactly the registered handler. -/
theorem register_then_is_registered_and_get {V : Type} (r : SymbolicRegistry V)
    (name : String) (opset : Int) (func : V)
    (hname : has_double_colon name.toList = true)
    (hnoov : ∀ g, r.get_function_group name = some g →
      g.functions.overridden opset = false) :
    ∃ r₂ warned, r.register name opset func false = Except.ok (r₂, warned) ∧
      (∃ r₃, r₂.is_registered_op name opset = Except.ok (true, r₃)) ∧
      ∃ g, r₂.get_function_group name = some g ∧
        group_get_result g opset = Except.ok (some func) := by
  have hcond : ¬ (has_double_colon name.toList = false) := by
    rw [hname]
    simp
  set g₀ := (dict_get r.registry name).getD ⟨name, OverrideDict.empty, []⟩ with hg₀
  set g₁ := (g₀.add func opset).1 with hg₁
  have hreg : r.register name opset func false
      = Except.ok (⟨dict_insert r.registry name g₁⟩, (g₀.add func opset).2) := by
    unfold SymbolicRegistry.register
    rw [if_neg hcond]
    rfl
  have hov : dict_get g₀.functions.overrides opset = none := by
    rw [hg₀]
    cases hr : dict_get r.registry name with
    | none =>
      show dict_get (OverrideDict.empty : OverrideDict Int V).overrides opset = none
      rfl
    | some g =>
      have hovg := hnoov g (by unfold SymbolicRegistry.get_function_group; exact hr)
      unfold OverrideDict.overridden at hovg
      show dict_get g.functions.overrides opset = none
      cases hd : dict_get g.functions.overrides opset with
      | none => rfl
      | some f => rw [hd] at hovg; exact absurd hovg (by simp)
  have hlook : dict_get (dict_insert r.registry name g₁) name = some g₁ := by
    rw [dict_get_insert, if_pos rfl]
  have hmerged : dict_get g₁.functions.merged opset = some func := by
    show dict_get (dict_union (dict_insert g₀.functions.base opset func)
      g₀.functions.overrides) opset = some func
    rw [dict_get_union_of_none hov, dict_get_insert, if_pos rfl]
  have hresult : group_get_result g₁ opset = Except.ok (some func) := by
    rw [cache_ok_get_result (cache_ok_of_nil rfl) opset]
    show uncached_get g₁.functions opset = Except.ok (some func)
    unfold uncached_get
    rw [dispatch_mem (dict_get_some_mem_keys hmerged)]
    show (match dict_get g₁.functions.merged opset with
      | none => Except.error PyError.keyError
      | some f => Except.ok (some f)) = Except.ok (some func)
    rw [hmerged]
  refine ⟨⟨dict_insert r.registry name g₁⟩, (g₀.add func opset).2, hreg, ?_, g₁, hlook,
    hresult⟩
  cases hget : g₁.get opset with
  | error e =>
    have hcontr := hresult
    rw [show group_get_result g₁ opset = (g₁.get opset).map Prod.fst from rfl, hget]
      at hcontr
    exact absurd hcontr (by simp [Except.map])
  | ok p =>
    obtain ⟨res, g₂⟩ := p
    have hp1 : res = some func := by
      have hcontr := hresult
      rw [show group_get_result g₁ opset = (g₁.get opset).map Prod.fst from rfl, hget]
        at hcontr
      simpa [Except.map] using hcontr
    subst hp1
    refine ⟨⟨dict_insert (dict_insert r.registry name g₁) name g₂⟩, ?_⟩
    simp only [SymbolicRegistry.is_registered_op, hlook, hget]
    rfl

/-- C6 witness: registering handler `7` for `"aten::foo"` at opset 9 in the
empty registry makes `is_registered_op` true and `get` return `7`. -/
theorem register_then_is_registered_and_get_witness :
    ∃ r₂ warned, (SymbolicRegistry.empty : SymbolicRegistry Nat).register
        ("aten::foo") 9 7 false = Except.ok (r₂, warned) ∧
      (∃ r₃, r₂.is_registered_op ("aten::foo") 9 = Except.ok (true, r₃)) ∧
      ∃ g, r₂.get_function_group ("aten::foo") = some g ∧
        group_get_result g 9 = Except.ok (some 7) :=
  register_then_is_registered_and_get SymbolicRegistry.empty ("aten::foo") 9 7
    (by decide)
    (fun g h => by
      have : (none : Option (SymbolicFunctionGroup Nat)) = some g := h
      exact absurd this (by simp))
